import Mathlib

/-!
Verification of the multi-endpoint blob replication engine.

This file gives a shallow embedding of the engine's pure logic:
URL normalization and hash extraction (`serverList.ts`), the request
deduplicator (`requestDeduplication.ts`), the auth-event cache
(`serverList.ts`), the retry executor (`retry.ts`), and the
multi-server operations of `EnhancedBlossomAPI` (upload-to-all,
sequential fallback upload, delete-with-fallback, availability probe,
fallback-to-default upload/list).  Network calls are modelled by an
explicit per-endpoint outcome function handed to each operation;
JavaScript `Map`s become association lists; wall-clock times are `Nat`
milliseconds passed explicitly.
-/

namespace Swarm

/-- Model of `normalizeBaseUrl` (serverList.ts / EnhancedBlossomAPI):
`url.endsWith('/') ? url.slice(0, -1) : url`.  A single-character suffix
test is exactly a test on the last character, and `slice(0, -1)` drops the
last character. -/
def normalizeBaseUrl (url : String) : String :=
  if url.data.getLast? = some '/' then String.mk url.data.dropLast else url

/-- Characters matched by the character class `[a-f0-9]` with the `i`
(case-insensitive) flag, as used by `extractSha256FromUrl`. -/
def isHexDigit (c : Char) : Bool :=
  (('a' ≤ c && c ≤ 'f') || ('A' ≤ c && c ≤ 'F') || ('0' ≤ c && c ≤ '9'))

/-- Model of the JavaScript global regex scan `url.match(/[a-f0-9]{64}/gi)`:
scan left to right; at the first position where 64 consecutive hex
characters start, take those 64 characters as a match and resume the scan
immediately after them; otherwise move one character forward.  The `fuel`
argument only ensures structural termination; it is always called with
`fuel ≥ s.length`, where the recursion is fuel-independent. -/
def hexRunsAux : Nat → List Char → List (List Char)
  | 0, _ => []
  | _ + 1, [] => []
  | fuel + 1, c :: cs =>
    if 64 ≤ (c :: cs).length && ((c :: cs).take 64).all isHexDigit then
      ((c :: cs).take 64) :: hexRunsAux fuel ((c :: cs).drop 64)
    else
      hexRunsAux fuel cs

/-- All matches of `/[a-f0-9]{64}/gi` in `s`, in order. -/
def hexRuns (s : List Char) : List (List Char) :=
  hexRunsAux s.length s

/-- Model of `extractSha256FromUrl` (serverList.ts lines 16-19): the last
64-character hex match in the URL, or `none` when there is no match. -/
def extractSha256FromUrl (url : String) : Option String :=
  (hexRuns url.data).getLast?.map (fun run => String.mk run)

/-- Model of `[...new Set(list)]` on a list of strings (JS `Set` keeps
insertion order, so this keeps the first occurrence of each string).
`fuel` only ensures structural termination; it is always called with
`fuel ≥ l.length`. -/
def jsSetDedupAux : Nat → List String → List String
  | 0, _ => []
  | _ + 1, [] => []
  | fuel + 1, x :: xs => x :: jsSetDedupAux fuel (xs.filter (fun y => y ≠ x))

/-- Deduplication of the raw server-URL list done by
`listBlobsFromAllServers` (`[...new Set(this.userServerList.servers)]`). -/
def jsSetDedup (l : List String) : List String :=
  jsSetDedupAux l.length l

/-- Spec-side predicate (from the spec's words, for comparison with the
code's scanner): the character list contains 64 consecutive hex digits. -/
def hasHex64Run (s : List Char) : Prop :=
  ∃ pre run post, s = pre ++ run ++ post ∧ run.length = 64 ∧ run.all isHexDigit

/-- A 64-character uppercase hex string. -/
def hashUpper : String := String.mk (List.replicate 64 'A')

/-- The lowercase twin of `hashUpper`. -/
def hashLower : String := String.mk (List.replicate 64 'a')

lemma not_hasHex64Run_nil : ¬ hasHex64Run [] := by
  rintro ⟨pre, run, post, heq, hlen, -⟩
  rcases List.append_eq_nil.mp ((List.append_eq_nil.mp heq.symm).1) with ⟨-, h2⟩
  simp [h2] at hlen

lemma hasHex64Run_cons_iff {c : Char} {cs : List Char}
    (hcond : ¬ (64 ≤ (c :: cs).length && ((c :: cs).take 64).all isHexDigit) = true) :
    hasHex64Run (c :: cs) ↔ hasHex64Run cs := by
  constructor
  · rintro ⟨pre, run, post, heq, hlen, hall⟩
    cases pre with
    | nil =>
      exfalso
      apply hcond
      rw [List.nil_append] at heq
      have htake : (c :: cs).take 64 = run := by
        rw [heq, ← hlen, List.take_left]
      have hlen2 : 64 ≤ (c :: cs).length := by
        rw [heq, List.length_append, hlen]
        omega
      simp only [Bool.and_eq_true, decide_eq_true_eq]
      exact ⟨hlen2, by rw [htake]; exact hall⟩
    | cons p pre' =>
      simp only [List.cons_append, List.cons.injEq] at heq
      exact ⟨pre', run, post, heq.2, hlen, hall⟩
  · rintro ⟨pre, run, post, heq, hlen, hall⟩
    exact ⟨c :: pre, run, post, by simp [heq], hlen, hall⟩

lemma hexRunsAux_eq_nil_iff :
    ∀ (fuel : Nat) (s : List Char), s.length ≤ fuel →
      (hexRunsAux fuel s = [] ↔ ¬ hasHex64Run s) := by
  intro fuel
  induction fuel with
  | zero =>
    intro s hs
    have : s = [] := List.eq_nil_of_length_eq_zero (Nat.le_zero.mp hs)
    subst this
    simp [hexRunsAux, not_hasHex64Run_nil]
  | succ fuel ih =>
    intro s hs
    match s with
    | [] => simp [hexRunsAux, not_hasHex64Run_nil]
    | c :: cs =>
      by_cases hcond : (64 ≤ (c :: cs).length && ((c :: cs).take 64).all isHexDigit) = true
      · rw [hexRunsAux, if_pos hcond]
        simp only [List.cons_ne_nil, false_iff, not_not]
        have hcondp := hcond
        simp only [Bool.and_eq_true, decide_eq_true_eq] at hcondp
        refine ⟨[], (c :: cs).take 64, (c :: cs).drop 64, by simp, ?_, hcondp.2⟩
        rw [List.length_take]
        omega
      · rw [hexRunsAux, if_neg hcond]
        have hcs : cs.length ≤ fuel := by
          simp only [List.length_cons] at hs
          omega
        rw [ih cs hcs, hasHex64Run_cons_iff hcond]

lemma hexRunsAux_mem :
    ∀ (fuel : Nat) (s : List Char) (run : List Char), s.length ≤ fuel →
      run ∈ hexRunsAux fuel s →
      run.length = 64 ∧ run.all isHexDigit ∧ ∃ pre post, s = pre ++ run ++ post := by
  intro fuel
  induction fuel with
  | zero =>
    intro s run _ hmem
    simp [hexRunsAux] at hmem
  | succ fuel ih =>
    intro s run hs hmem
    match s with
    | [] => simp [hexRunsAux] at hmem
    | c :: cs =>
      by_cases hcond : (64 ≤ (c :: cs).length && ((c :: cs).take 64).all isHexDigit) = true
      · rw [hexRunsAux, if_pos hcond] at hmem
        have hcondp := hcond
        simp only [Bool.and_eq_true, decide_eq_true_eq] at hcondp
        rcases List.mem_cons.mp hmem with heq | hmem'
        · subst heq
          refine ⟨?_, hcondp.2, [], (c :: cs).drop 64, by simp⟩
          rw [List.length_take]
          omega
        · have hdrop : ((c :: cs).drop 64).length ≤ fuel := by
            rw [List.length_drop]
            simp only [List.length_cons] at hs ⊢
            omega
          obtain ⟨h1, h2, pre, post, h3⟩ := ih _ run hdrop hmem'
          refine ⟨h1, h2, (c :: cs).take 64 ++ pre, post, ?_⟩
          conv_lhs => rw [← List.take_append_drop 64 (c :: cs)]
          rw [h3]
          simp
      · rw [hexRunsAux, if_neg hcond] at hmem
        have hcs : cs.length ≤ fuel := by
          simp only [List.length_cons] at hs
          omega
        obtain ⟨h1, h2, pre, post, h3⟩ := ih cs run hcs hmem
        exact ⟨h1, h2, c :: pre, post, by simp [h3]⟩

lemma mem_of_getLastEq {α : Type} {l : List α} {a : α} (h : l.getLast? = some a) : a ∈ l := by
  induction l with
  | nil => simp [List.getLast?] at h
  | cons x xs ih =>
    cases xs with
    | nil =>
      simp only [List.getLast?_singleton, Option.some.injEq] at h
      simp [h]
    | cons y ys =>
      rw [List.getLast?_cons_cons] at h
      exact List.mem_cons_of_mem _ (ih h)

/-- C6, counterexample: `extractSha256FromUrl` does not lowercase the hash
it extracts.  On the uppercase-hex URL it returns the uppercase hash, which
differs from the hash returned for the lowercase twin, contradicting the
claim that both yield the same lowercase 64-character string. -/
theorem extractSha256FromUrl_not_lowercased :
    extractSha256FromUrl ("https://x/" ++ hashUpper) = some hashUpper ∧
    extractSha256FromUrl ("https://x/" ++ hashLower) = some hashLower ∧
    hashUpper ≠ hashLower := by
  decide

/-- C6 (amended): for every URL containing a 64-character hexadecimal
segment (matched case-insensitively), hash extraction returns such a
segment exactly as it appears in the URL (case preserved, not lowercased);
for every URL containing no 64-hex segment it returns `none`. -/
theorem extractSha256FromUrl_characterization (url : String) :
    (extractSha256FromUrl url = none ↔ ¬ hasHex64Run url.data) ∧
    (∀ h, extractSha256FromUrl url = some h →
      h.data.length = 64 ∧ h.data.all isHexDigit ∧
      ∃ pre post, url.data = pre ++ h.data ++ post) := by
  constructor
  · rw [extractSha256FromUrl, Option.map_eq_none', List.getLast?_eq_none_iff]
    exact hexRunsAux_eq_nil_iff _ _ le_rfl
  · intro h hmap
    rw [extractSha256FromUrl, Option.map_eq_some'] at hmap
    obtain ⟨run, hlast, rfl⟩ := hmap
    exact hexRunsAux_mem _ _ run le_rfl (mem_of_getLastEq hlast)

/-- C6, witness: the amended characterization applied to a concrete URL
containing a lowercase 64-hex segment. -/
theorem extractSha256FromUrl_characterization_witness :
    hashLower.data.length = 64 ∧ hashLower.data.all isHexDigit ∧
    ∃ pre post, ("https://x/" ++ hashLower).data = pre ++ hashLower.data ++ post :=
  (extractSha256FromUrl_characterization ("https://x/" ++ hashLower)).2 hashLower (by decide)

/-- Spec-side formulation of deduplication (from the spec's words): remove
duplicates, the first occurrence of each URL keeping its rank position. -/
def keepFirstsAux : List String → List String → List String
  | _, [] => []
  | seen, x :: xs =>
    if x ∈ seen then keepFirstsAux seen xs else x :: keepFirstsAux (x :: seen) xs

/-- Spec-side deduplication starting from an empty seen-set. -/
def keepFirsts (l : List String) : List String := keepFirstsAux [] l

lemma jsSetDedupAux_nil (fuel : Nat) : jsSetDedupAux fuel [] = [] := by
  cases fuel <;> rfl

lemma jsSetDedupAux_spec :
    ∀ (fuel : Nat) (l : List String), l.length ≤ fuel →
      (jsSetDedupAux fuel l).Nodup ∧ (∀ s, s ∈ jsSetDedupAux fuel l ↔ s ∈ l) ∧
      List.Sublist (jsSetDedupAux fuel l) l := by
  intro fuel
  induction fuel with
  | zero =>
    intro l hl
    have : l = [] := List.eq_nil_of_length_eq_zero (Nat.le_zero.mp hl)
    subst this
    simp [jsSetDedupAux]
  | succ fuel ih =>
    intro l hl
    match l with
    | [] => simp [jsSetDedupAux]
    | x :: xs =>
      have hlen : (xs.filter (fun y => y ≠ x)).length ≤ fuel := by
        have := List.length_filter_le (fun y => decide (y ≠ x)) xs
        simp only [List.length_cons] at hl
        omega
      obtain ⟨hnd, hmem, hsub⟩ := ih _ hlen
      rw [jsSetDedupAux]
      refine ⟨?_, ?_, ?_⟩
      · refine List.nodup_cons.mpr ⟨?_, hnd⟩
        intro hx
        have := (hmem x).mp hx
        rw [List.mem_filter] at this
        simp at this
      · intro s
        rw [List.mem_cons, hmem s, List.mem_filter, List.mem_cons]
        by_cases hsx : s = x <;> simp [hsx]
      · exact List.Sublist.cons₂ x (hsub.trans (List.filter_sublist xs))

lemma jsSetDedupAux_fuel :
    ∀ (fuel fuel' : Nat) (l : List String), l.length ≤ fuel → l.length ≤ fuel' →
      jsSetDedupAux fuel l = jsSetDedupAux fuel' l := by
  intro fuel
  induction fuel with
  | zero =>
    intro fuel' l hl _
    have : l = [] := List.eq_nil_of_length_eq_zero (Nat.le_zero.mp hl)
    subst this
    rw [jsSetDedupAux_nil, jsSetDedupAux_nil]
  | succ fuel ih =>
    intro fuel' l hl hl'
    match l with
    | [] => rw [jsSetDedupAux_nil, jsSetDedupAux_nil]
    | x :: xs =>
      match fuel' with
      | 0 => simp at hl'
      | fuel' + 1 =>
        rw [jsSetDedupAux, jsSetDedupAux]
        have hlen := List.length_filter_le (fun y => decide (y ≠ x)) xs
        simp only [List.length_cons] at hl hl'
        rw [ih fuel' _ (by omega) (by omega)]

lemma keepFirstsAux_eq :
    ∀ (fuel : Nat) (l seen : List String), l.length ≤ fuel →
      keepFirstsAux seen l =
        jsSetDedupAux (l.filter (fun y => y ∉ seen)).length (l.filter (fun y => y ∉ seen)) := by
  intro fuel
  induction fuel with
  | zero =>
    intro l seen hl
    have : l = [] := List.eq_nil_of_length_eq_zero (Nat.le_zero.mp hl)
    subst this
    simp [keepFirstsAux, jsSetDedupAux]
  | succ fuel ih =>
    intro l seen hl
    match l with
    | [] => simp [keepFirstsAux, jsSetDedupAux]
    | x :: xs =>
      simp only [List.length_cons] at hl
      by_cases hx : x ∈ seen
      · rw [keepFirstsAux, if_pos hx, ih xs seen (by omega)]
        have : (x :: xs).filter (fun y => y ∉ seen) = xs.filter (fun y => y ∉ seen) := by
          rw [List.filter_cons]
          simp [hx]
        rw [this]
      · rw [keepFirstsAux, if_neg hx, ih xs (x :: seen) (by omega)]
        have hfc : (x :: xs).filter (fun y => y ∉ seen) = x :: xs.filter (fun y => y ∉ seen) := by
          rw [List.filter_cons]
          simp [hx]
        rw [hfc]
        simp only [List.length_cons]
        rw [jsSetDedupAux]
        have hff : (xs.filter (fun y => y ∉ seen)).filter (fun y => y ≠ x) =
            xs.filter (fun y => y ∉ x :: seen) := by
          rw [List.filter_filter]
          refine List.filter_congr ?_
          intro a _
          by_cases h1 : a = x <;> by_cases h2 : a ∈ seen <;> simp [h1, h2]
        rw [hff]
        congr 1
        apply jsSetDedupAux_fuel
        · exact le_rfl
        · rw [← hff]
          exact List.length_filter_le _ _

lemma jsSetDedup_eq_keepFirsts (l : List String) : jsSetDedup l = keepFirsts l := by
  rw [keepFirsts, keepFirstsAux_eq l.length l [] le_rfl]
  have : l.filter (fun y => y ∉ ([] : List String)) = l := by
    apply List.filter_eq_self.mpr
    intro a _
    simp
  rw [this, jsSetDedup]

/-- C8, counterexample: the server-list deduplication of
`listBlobsFromAllServers` happens on the raw URL strings, before any
trailing-slash normalization, so a list containing both `https://a/` and
`https://a` keeps two entries that normalize to the same URL, contradicting
the claimed uniqueness-after-normalization invariant. -/
theorem jsSetDedup_keeps_trailing_slash_twin :
    jsSetDedup ["https://a/", "https://a"] = ["https://a/", "https://a"] ∧
    normalizeBaseUrl "https://a/" = normalizeBaseUrl "https://a" := by
  decide

/-- C8 (amended): the deduplicated endpoint set contains no two entries
that are equal as raw strings; duplicates are removed by exact string
equality with the first occurrence keeping its rank position (the result
is an order-preserving subsequence of the raw list equal to the
keep-first-occurrences function), but entries that differ only by a
trailing slash both survive even though they normalize to the same URL. -/
theorem jsSetDedup_characterization (l : List String) :
    (jsSetDedup l).Nodup ∧ (∀ s, s ∈ jsSetDedup l ↔ s ∈ l) ∧
    List.Sublist (jsSetDedup l) l ∧ jsSetDedup l = keepFirsts l := by
  obtain ⟨h1, h2, h3⟩ := jsSetDedupAux_spec l.length l le_rfl
  exact ⟨h1, h2, h3, jsSetDedup_eq_keepFirsts l⟩

/-- One in-flight entry of `RequestDeduplicator.pendingRequests`
(requestDeduplication.ts).  The stored promise is modelled by the identity
of the execution (`execId`) that produced it: callers holding the same
`execId` share one execution and therefore one outcome. -/
structure PendingEntry where
  key : String
  timestamp : Nat
  execId : Nat
deriving DecidableEq, Repr

/-- State of a `RequestDeduplicator` instance: the pending-request map (a
JS `Map` in insertion order) and the number of executions started so far
(`nextId` doubles as the next fresh execution identity). -/
structure DedupState where
  pending : List PendingEntry
  nextId : Nat
deriving DecidableEq, Repr

/-- The `REQUEST_TIMEOUT` constant (30 seconds, in milliseconds). -/
def REQUEST_TIMEOUT : Nat := 30000

/-- Model of `RequestDeduplicator.cleanup` (requestDeduplication.ts lines
63-70): delete every entry with `now - timestamp > REQUEST_TIMEOUT`. -/
def cleanupPending (now : Nat) (l : List PendingEntry) : List PendingEntry :=
  l.filter (fun e => ¬ (REQUEST_TIMEOUT < now - e.timestamp))

/-- JS `Map.set`: overwrite an existing entry in place, else append. -/
def mapSet (l : List PendingEntry) (key : String) (ts id : Nat) : List PendingEntry :=
  if (l.find? (fun e => e.key = key)).isSome then
    l.map (fun e => if e.key = key then ⟨key, ts, id⟩ else e)
  else l ++ [⟨key, ts, id⟩]

/-- Model of `RequestDeduplicator.deduplicate` (requestDeduplication.ts
lines 18-44) restricted to calls issued while the underlying operation is
still pending (the `.finally` cleanup that fires on settlement is
therefore not modelled): run `cleanup`, reuse the pending entry when one
exists for `key` with `now - timestamp < ttl`, otherwise start a new
execution, register it under `key`, and return it.  Returns the execution
identity handed to the caller together with the new state. -/
def deduplicate (key : String) (ttl : Nat) (now : Nat) (st : DedupState) : Nat × DedupState :=
  let pend := cleanupPending now st.pending
  match pend.find? (fun e => e.key = key) with
  | some e =>
    if now - e.timestamp < ttl then (e.execId, { pending := pend, nextId := st.nextId })
    else (st.nextId, { pending := mapSet pend key now st.nextId, nextId := st.nextId + 1 })
  | none => (st.nextId, { pending := mapSet pend key now st.nextId, nextId := st.nextId + 1 })

/-- Run a sequence of `deduplicate` calls (key, ttl, time), collecting the
execution identity each caller receives. -/
def runCalls (st : DedupState) : List (String × Nat × Nat) → List Nat × DedupState
  | [] => ([], st)
  | (key, ttl, now) :: rest =>
    let p := deduplicate key ttl now st
    let q := runCalls p.2 rest
    (p.1 :: q.1, q.2)

/-- A fresh deduplicator: empty map, no executions yet. -/
def initialDedupState : DedupState := ⟨[], 0⟩

/-- C1, counterexample: with `ttl = 0` two calls for the same key issued at
the same instant, both before the first settles, start two executions
(`nextId = 2`) and the callers receive different outcomes (`[0, 1]`),
contradicting exactly-once execution "for every ttl value". -/
theorem deduplicate_ttl_zero_reexecutes :
    (runCalls initialDedupState [("k", 0, 100), ("k", 0, 100)]).2.nextId = 2 ∧
    (runCalls initialDedupState [("k", 0, 100), ("k", 0, 100)]).1 = [0, 1] := by
  decide

lemma deduplicate_reuse (key : String) (ttl t0 t : Nat) (n : Nat)
    (h1 : t - t0 < ttl) (h2 : t - t0 ≤ 30000) :
    deduplicate key ttl t ⟨[⟨key, t0, 0⟩], n⟩ = (0, ⟨[⟨key, t0, 0⟩], n⟩) := by
  have hkeep : cleanupPending t [⟨key, t0, 0⟩] = [⟨key, t0, 0⟩] := by
    have hle : t ≤ 30000 + t0 := by omega
    simp [cleanupPending, List.filter, REQUEST_TIMEOUT, hle]
  rw [deduplicate]
  simp only [hkeep]
  rw [List.find?]
  simp [h1]

/-- C1 (amended): for every key, if N ≥ 2 calls to
`deduplicate(k, operation, ttl)` are issued before the first call's
operation settles, and every subsequent call arrives strictly less than
`ttl` and at most `REQUEST_TIMEOUT` (30 s) after the first, the operation
is started exactly once (final `nextId = 1`) and all N callers receive the
identical outcome (they all share execution 0); with `ttl = 0`, or a gap
of `ttl` or more, the operation is re-invoked instead. -/
theorem deduplicate_shares_execution (key : String) (ttl t0 : Nat) (ts : List Nat)
    (h : ∀ t ∈ ts, t0 ≤ t ∧ t - t0 < ttl ∧ t - t0 ≤ REQUEST_TIMEOUT) :
    runCalls initialDedupState ((key, ttl, t0) :: ts.map (fun t => (key, ttl, t))) =
      (List.replicate (ts.length + 1) 0, ⟨[⟨key, t0, 0⟩], 1⟩) := by
  have hfirst : deduplicate key ttl t0 initialDedupState = (0, ⟨[⟨key, t0, 0⟩], 1⟩) := by
    simp [deduplicate, initialDedupState, cleanupPending, mapSet, List.find?]
  rw [runCalls]
  simp only [hfirst]
  have hrest : ∀ (l : List Nat), (∀ t ∈ l, t0 ≤ t ∧ t - t0 < ttl ∧ t - t0 ≤ REQUEST_TIMEOUT) →
      runCalls ⟨[⟨key, t0, 0⟩], 1⟩ (l.map (fun t => (key, ttl, t))) =
        (List.replicate l.length 0, ⟨[⟨key, t0, 0⟩], 1⟩) := by
    intro l
    induction l with
    | nil => intro _; simp [runCalls]
    | cons t rest ih =>
      intro hl
      obtain ⟨ht, hrest'⟩ := List.forall_mem_cons.mp hl
      rw [List.map_cons, runCalls]
      rw [deduplicate_reuse key ttl t0 t 1 ht.2.1 ht.2.2]
      simp [ih hrest', List.replicate_succ]
  rw [hrest ts h]
  simp [List.replicate_succ]

/-- C1, witness: three calls for key "k" with ttl 1000 at times 0, 10 and
20, all before settlement, share execution 0 and leave `nextId = 1`. -/
theorem deduplicate_shares_execution_witness :
    runCalls initialDedupState (("k", 1000, 0) :: [10, 20].map (fun t => ("k", 1000, t))) =
      ([0, 0, 0], ⟨[⟨"k", 0, 0⟩], 1⟩) := by
  have := deduplicate_shares_execution "k" 1000 0 [10, 20] (by decide)
  simpa using this

/-- A signed kind-24242 auth event (serverList.ts).  The `t` tag, the
`expiration` tag (unix seconds) and the optional `x` tag are modelled as
named fields; `mintId` is the identity of the signing that produced the
event, so distinct issuances are distinguishable. -/
structure BlossomAuthEvent where
  action : String
  expirationSec : Nat
  xTag : Option String
  createdAtSec : Nat
  mintId : Nat
deriving DecidableEq, Repr

/-- One entry of `authEventCache`: the event and its cache expiry in
milliseconds. -/
structure CachedAuthEvent where
  event : BlossomAuthEvent
  expires : Nat
deriving DecidableEq, Repr

/-- The `authEventCache` map, in insertion order. -/
abbrev AuthCache := List (String × CachedAuthEvent)

/-- The cache key `action:method:(sha256 || "none")`. -/
def cacheKey (action method : String) (sha : Option String) : String :=
  action ++ ":" ++ method ++ ":" ++ sha.getD "none"

/-- JS `Map.get` on the auth cache. -/
def cacheGet (c : AuthCache) (k : String) : Option CachedAuthEvent :=
  (c.find? (fun e => e.1 = k)).map (fun e => e.2)

/-- JS `Map.delete` on the auth cache. -/
def cacheDelete (c : AuthCache) (k : String) : AuthCache :=
  c.filter (fun e => e.1 ≠ k)

/-- JS `Map.set` on the auth cache: overwrite in place, else append. -/
def cacheSet (c : AuthCache) (k : String) (v : CachedAuthEvent) : AuthCache :=
  if (c.find? (fun e => e.1 = k)).isSome then
    c.map (fun e => if e.1 = k then (k, v) else e)
  else c ++ [(k, v)]

/-- Model of `getCachedAuthEvent` (serverList.ts lines 525-539): return
the cached event only when `now < expires`; a present-but-expired entry is
deleted.  Returns the lookup result and the updated cache. -/
def getCachedAuthEvent (action method : String) (sha : Option String) (now : Nat)
    (c : AuthCache) : Option BlossomAuthEvent × AuthCache :=
  let k := cacheKey action method sha
  match cacheGet c k with
  | some cached =>
    if now < cached.expires then (some cached.event, c)
    else (none, cacheDelete c k)
  | none => (none, c)

/-- Model of `cacheAuthEvent` (serverList.ts lines 544-555): store the
event under its key with `cacheExpires = eventExpires - 30000` ms.  Events
minted by `createBlossomAuthEvent` always carry an expiration tag, so the
tag-present branch is the one modelled. -/
def cacheAuthEvent (action method : String) (e : BlossomAuthEvent) (sha : Option String)
    (c : AuthCache) : AuthCache :=
  let k := cacheKey action method sha
  let eventExpires := e.expirationSec * 1000
  let cacheExpires := eventExpires - 30000
  cacheSet c k ⟨e, cacheExpires⟩

/-- The event built by `createBlossomAuthEvent` on a cache miss at time
`now` (ms): expiration `now/1000 + 300` seconds, `x` tag only for
upload/delete with a hash, and a fresh signing identity `mint`. -/
def mintedEvent (action : String) (sha : Option String) (now mint : Nat) : BlossomAuthEvent :=
  { action := action
    expirationSec := now / 1000 + 300
    xTag := if sha.isSome ∧ (action = "upload" ∨ action = "delete") then sha else none
    createdAtSec := now / 1000
    mintId := mint }

/-- Model of `createBlossomAuthEvent` (serverList.ts): consult the cache
first; on a miss mint a fresh signed event, cache it and return it.
`mintCount` counts underlying signings (token issuances). -/
def createBlossomAuthEvent (action method : String) (sha : Option String) (now : Nat)
    (c : AuthCache) (mintCount : Nat) : BlossomAuthEvent × AuthCache × Nat :=
  match getCachedAuthEvent action method sha now c with
  | (some e, c') => (e, c', mintCount)
  | (none, c') =>
    let e := mintedEvent action sha now mintCount
    (e, cacheAuthEvent action method e sha c', mintCount + 1)

/-- Cache expiry an event is stored with: issued expiry minus the
30-second safety margin, in milliseconds. -/
def cacheExpiryOf (e : BlossomAuthEvent) : Nat := e.expirationSec * 1000 - 30000

lemma createBlossomAuthEvent_empty (action method : String) (sha : Option String) (t0 : Nat) :
    createBlossomAuthEvent action method sha t0 [] 0 =
      (mintedEvent action sha t0 0,
       [(cacheKey action method sha,
         ⟨mintedEvent action sha t0 0, cacheExpiryOf (mintedEvent action sha t0 0)⟩)], 1) := by
  simp [createBlossomAuthEvent, getCachedAuthEvent, cacheGet, cacheAuthEvent, cacheSet,
    cacheExpiryOf]

/-- C7: the auth token cache returns a cached token for a key only when
the current time is strictly before the token's expiration minus the
30-second safety margin (`cacheExpiryOf`); otherwise the stale entry is
evicted and a fresh token (a new `mintId`) is minted, stored with cache
expiry = issued expiry − 30 s, and returned.  Consequently two lookups for
the same key within the validity window cause only one issuance (the mint
count stays 1). -/
theorem authCache_single_issuance (action method : String) (sha : Option String) (t0 t1 : Nat) :
    (createBlossomAuthEvent action method sha t0 [] 0).2.2 = 1 ∧
    (createBlossomAuthEvent action method sha t0 [] 0).1 = mintedEvent action sha t0 0 ∧
    cacheGet (createBlossomAuthEvent action method sha t0 [] 0).2.1 (cacheKey action method sha) =
      some ⟨mintedEvent action sha t0 0, cacheExpiryOf (mintedEvent action sha t0 0)⟩ ∧
    cacheExpiryOf (mintedEvent action sha t0 0) = (t0 / 1000 + 300) * 1000 - 30000 ∧
    (t1 < cacheExpiryOf (mintedEvent action sha t0 0) →
      createBlossomAuthEvent action method sha t1
          (createBlossomAuthEvent action method sha t0 [] 0).2.1 1 =
        (mintedEvent action sha t0 0,
         (createBlossomAuthEvent action method sha t0 [] 0).2.1, 1)) ∧
    (¬ t1 < cacheExpiryOf (mintedEvent action sha t0 0) →
      createBlossomAuthEvent action method sha t1
          (createBlossomAuthEvent action method sha t0 [] 0).2.1 1 =
        (mintedEvent action sha t1 1,
         [(cacheKey action method sha,
           ⟨mintedEvent action sha t1 1, cacheExpiryOf (mintedEvent action sha t1 1)⟩)], 2)) := by
  rw [createBlossomAuthEvent_empty]
  refine ⟨rfl, rfl, ?_, rfl, ?_, ?_⟩
  · simp only [cacheGet]
    generalize cacheKey action method sha = k
    simp [List.find?]
  · intro hlt
    simp only [createBlossomAuthEvent, getCachedAuthEvent]
    generalize cacheKey action method sha = k
    simp only [cacheGet, List.find?, decide_True, Option.map_some']
    rw [if_pos hlt]
  · intro hge
    simp only [createBlossomAuthEvent, getCachedAuthEvent, cacheAuthEvent, cacheSet, cacheDelete]
    generalize cacheKey action method sha = k
    simp only [cacheGet, List.find?, decide_True, Option.map_some']
    rw [if_neg hge]
    simp [List.filter, cacheExpiryOf]

/-- C7, witness: a first issuance at time 0 and a second lookup at time
1000 ms (inside the validity window, which ends at 270000 ms) return the
same event without a second signing. -/
theorem authCache_single_issuance_witness :
    createBlossomAuthEvent "upload" "extension" (some "h") 1000
        (createBlossomAuthEvent "upload" "extension" (some "h") 0 [] 0).2.1 1 =
      (mintedEvent "upload" (some "h") 0 0,
       (createBlossomAuthEvent "upload" "extension" (some "h") 0 [] 0).2.1, 1) :=
  (authCache_single_issuance "upload" "extension" (some "h") 0 1000).2.2.2.2.1 (by decide)

/-- The `RetryResult` shape of retry.ts: success flag, optional value,
optional error, attempt count.  Elapsed wall-clock time (`totalTime`) is
not modelled. -/
structure RetryResult (R : Type) where
  success : Bool
  result : Option R
  error : Option String
  attempts : Nat
deriving DecidableEq, Repr

/-- Whether `pre` is a prefix of `s` (character-level). -/
def listHasPre (pre s : List Char) : Bool :=
  match pre, s with
  | [], _ => true
  | _ :: _, [] => false
  | p :: ps, c :: cs => p = c && listHasPre ps cs

/-- JS `String.includes`: `sub` occurs contiguously somewhere in the list. -/
def listHasSub (sub : List Char) : List Char → Bool
  | [] => sub.isEmpty
  | c :: cs => listHasPre sub (c :: cs) || listHasSub sub cs

/-- JS `s.includes(sub)` on strings. -/
def strIncludes (s sub : String) : Bool := listHasSub sub.data s.data

/-- JS `toLowerCase` (ASCII suffices for the classifier's patterns). -/
def toLowerStr (s : String) : String := String.mk (s.data.map Char.toLower)

/-- The default `shouldRetry` classifier of retry.ts: retry when the
lowercased message contains fetch/network/timeout/500/502/503/504. -/
def defaultShouldRetry (msg : String) : Bool :=
  let m := toLowerStr msg
  strIncludes m "fetch" || strIncludes m "network" || strIncludes m "timeout" ||
    strIncludes m "500" || strIncludes m "502" || strIncludes m "503" || strIncludes m "504"

/-- Model of the attempt loop of `withRetry` (retry.ts lines 47-87).
`f attempt` is the outcome of the attempt-th invocation of the wrapped
operation; the inter-attempt delay only sleeps and is dropped.  Arguments:
remaining loop iterations, 1-based attempt number, and an invocation
counter; the pair returned is the `RetryResult` and the total number of
times `f` was invoked.  On loop exhaustion with no iteration run (only
reachable when `maxAttempts = 0`) the code returns `success: false` with
an undefined error and `attempts: maxAttempts`.  On break (last attempt or
non-retryable error) the code returns `attempts: opts.maxAttempts`,
not the attempt number reached. -/
def withRetryGo {R : Type} (f : Nat → Except String R) (shouldRetry : String → Bool)
    (maxAttempts : Nat) : Nat → Nat → Nat → RetryResult R × Nat
  | 0, _, calls => (⟨false, none, none, maxAttempts⟩, calls)
  | remaining + 1, attempt, calls =>
    match f attempt with
    | .ok v => (⟨true, some v, none, attempt⟩, calls + 1)
    | .error e =>
      if attempt = maxAttempts || !shouldRetry e then
        (⟨false, none, some e, maxAttempts⟩, calls + 1)
      else
        withRetryGo f shouldRetry maxAttempts remaining (attempt + 1) (calls + 1)

/-- Model of `withRetry`: run the loop from attempt 1. -/
def withRetry {R : Type} (f : Nat → Except String R) (shouldRetry : String → Bool)
    (maxAttempts : Nat) : RetryResult R × Nat :=
  withRetryGo f shouldRetry maxAttempts maxAttempts 1 0

lemma withRetryGo_spec {R : Type} (f : Nat → Except String R) (shouldRetry : String → Bool)
    (maxAttempts : Nat) :
    ∀ (remaining attempt calls0 : Nat), 1 ≤ remaining → remaining + attempt = maxAttempts + 1 →
      ∃ k, 1 ≤ k ∧ k ≤ remaining ∧
        (withRetryGo f shouldRetry maxAttempts remaining attempt calls0).2 = calls0 + k ∧
        ((∃ v, f (attempt + k - 1) = Except.ok v ∧
          (withRetryGo f shouldRetry maxAttempts remaining attempt calls0).1 =
            ⟨true, some v, none, attempt + k - 1⟩) ∨
         (∃ e, f (attempt + k - 1) = Except.error e ∧
          (withRetryGo f shouldRetry maxAttempts remaining attempt calls0).1 =
            ⟨false, none, some e, maxAttempts⟩)) := by
  intro remaining
  induction remaining with
  | zero => intro attempt calls0 h1 _; omega
  | succ remaining ih =>
    intro attempt calls0 _ h2
    match hf : f attempt with
    | .ok v =>
      refine ⟨1, le_rfl, by omega, ?_, Or.inl ⟨v, ?_, ?_⟩⟩ <;>
        simp [withRetryGo, hf]
    | .error e =>
      by_cases hstop : (attempt = maxAttempts || !shouldRetry e) = true
      · refine ⟨1, le_rfl, by omega, ?_, Or.inr ⟨e, ?_, ?_⟩⟩ <;>
          simp [withRetryGo, hf, hstop]
      · have hne : attempt ≠ maxAttempts := by
          intro hcontra
          exact hstop (by simp [hcontra])
        have hrem : 1 ≤ remaining := by omega
        obtain ⟨k, hk1, hk2, hk3, hk4⟩ := ih (attempt + 1) (calls0 + 1) hrem (by omega)
        have hunfold : withRetryGo f shouldRetry maxAttempts (remaining + 1) attempt calls0 =
            withRetryGo f shouldRetry maxAttempts remaining (attempt + 1) (calls0 + 1) := by
          rw [withRetryGo]
          simp only [hf]
          rw [if_neg hstop]
        refine ⟨k + 1, by omega, by omega, ?_, ?_⟩
        · rw [hunfold, hk3]
          omega
        · rw [hunfold]
          have harith : attempt + (k + 1) - 1 = attempt + 1 + k - 1 := by omega
          rw [harith]
          exact hk4

/-- C9, counterexample: with `maxAttempts = 3` and a non-retryable error
("Invalid file hash" matches none of the default retry patterns), the
wrapped operation is invoked exactly once, yet the returned failure
reports `attempts = 3`, so the reported attempt count does not equal the
number of invocations on the early-stop failure path. -/
theorem withRetry_attempts_overcount :
    withRetry (fun _ => (Except.error "Invalid file hash" : Except String Nat))
        defaultShouldRetry 3 =
      (⟨false, none, some "Invalid file hash", 3⟩, 1) ∧ (3 : Nat) ≠ 1 := by
  decide

/-- C9 (amended): for `maxAttempts ≥ 1` the retry executor invokes the
operation between 1 and `maxAttempts` times and returns the successful
value or the last invocation's error together with an attempt count; on
the success path the reported count equals the number of invocations, but
on the failure path the reported count is always `maxAttempts`, which
exceeds the actual number of invocations whenever a non-retryable error
stopped execution early. -/
theorem withRetry_attempt_accounting {R : Type} (f : Nat → Except String R)
    (shouldRetry : String → Bool) (maxAttempts : Nat) (h : 1 ≤ maxAttempts) :
    1 ≤ (withRetry f shouldRetry maxAttempts).2 ∧
    (withRetry f shouldRetry maxAttempts).2 ≤ maxAttempts ∧
    ((withRetry f shouldRetry maxAttempts).1.success = true →
      ∃ v, f (withRetry f shouldRetry maxAttempts).2 = Except.ok v ∧
        (withRetry f shouldRetry maxAttempts).1 =
          ⟨true, some v, none, (withRetry f shouldRetry maxAttempts).2⟩) ∧
    ((withRetry f shouldRetry maxAttempts).1.success = false →
      ∃ e, f (withRetry f shouldRetry maxAttempts).2 = Except.error e ∧
        (withRetry f shouldRetry maxAttempts).1 = ⟨false, none, some e, maxAttempts⟩) := by
  obtain ⟨k, hk1, hk2, hk3, hk4⟩ :=
    withRetryGo_spec f shouldRetry maxAttempts maxAttempts 1 0 h (by omega)
  have hcalls : (withRetry f shouldRetry maxAttempts).2 = k := by
    rw [withRetry, hk3]
    omega
  have hidx : 1 + k - 1 = k := by omega
  rw [withRetry] at hcalls ⊢
  rw [hcalls]
  rcases hk4 with ⟨v, hv1, hv2⟩ | ⟨e, he1, he2⟩
  · rw [hidx] at hv1 hv2
    refine ⟨hk1, by omega, fun _ => ⟨v, hv1, hv2⟩, fun hfail => ?_⟩
    rw [hv2] at hfail
    simp at hfail
  · rw [hidx] at he1
    refine ⟨hk1, by omega, fun hsucc => ?_, fun _ => ⟨e, he1, he2⟩⟩
    rw [he2] at hsucc
    simp at hsucc

/-- Operation that fails twice with a retryable network error, then
succeeds on the third attempt. -/
def sampleRetryOp : Nat → Except String Nat :=
  fun n => if n < 3 then Except.error "network error" else Except.ok 7

/-- C9, witness: the amended accounting applied to `sampleRetryOp` with
`maxAttempts = 3`, whose third invocation succeeds. -/
theorem withRetry_attempt_accounting_witness :
    ∃ v, sampleRetryOp (withRetry sampleRetryOp defaultShouldRetry 3).2 = Except.ok v ∧
      (withRetry sampleRetryOp defaultShouldRetry 3).1 =
        ⟨true, some v, none, (withRetry sampleRetryOp defaultShouldRetry 3).2⟩ :=
  (withRetry_attempt_accounting sampleRetryOp defaultShouldRetry 3 (by decide)).2.2.1 (by decide)

/-- Shape of the `uploadToAllServers` return value (EnhancedBlossomAPI):
the successful `(serverUrl, response)` pairs, the failed
`(serverUrl, errorMessage)` pairs, and the primary result. -/
structure AllUploadResult (R : Type) where
  successful : List (String × R)
  failed : List (String × String)
  primaryResult : R
deriving DecidableEq, Repr

/-- The successful-outcome entry a server contributes, if any. -/
def okPair {R : Type} (upload : String → Except String R) (s : String) : Option (String × R) :=
  match upload s with
  | .ok r => some (s, r)
  | .error _ => none

/-- The failed-outcome entry a server contributes, if any. -/
def errPair {R : Type} (upload : String → Except String R) (s : String) :
    Option (String × String) :=
  match upload s with
  | .ok _ => none
  | .error e => some (s, e)

/-- The aggregate error message thrown by `uploadToAllServers` when every
endpoint failed: one `serverUrl: reason` segment per failed endpoint,
joined by ", ". -/
def allFailedMsg (failed : List (String × String)) : String :=
  "Failed to upload to any server. Errors: " ++
    String.intercalate ", " (failed.map (fun f => f.1 ++ ": " ++ f.2))

/-- Model of `uploadToAllServers` (part_006 lines 888-961) on a non-empty
user server list.  `upload s` is the settled per-server outcome (uploads
race, but `Promise.allSettled` reports them in list order, which is what
the partition into `successful`/`failed` consumes).  If nothing succeeded
the aggregate error is thrown; otherwise the first successful response is
the primary result. -/
def uploadToAllServers {R : Type} (upload : String → Except String R) (servers : List String) :
    Except String (AllUploadResult R) :=
  let successful := servers.filterMap (okPair upload)
  let failed := servers.filterMap (errPair upload)
  match successful with
  | [] => .error (allFailedMsg failed)
  | first :: rest => .ok ⟨first :: rest, failed, first.2⟩

lemma length_ok_add_err {R : Type} (upload : String → Except String R) (servers : List String) :
    (servers.filterMap (okPair upload)).length + (servers.filterMap (errPair upload)).length =
      servers.length := by
  induction servers with
  | nil => rfl
  | cons s rest ih =>
    rw [List.filterMap_cons, List.filterMap_cons]
    match h : upload s with
    | .ok r => simp [okPair, errPair, h, ih]; omega
    | .error e => simp [okPair, errPair, h, ih]; omega

lemma filterMap_head_decomp {α β : Type} (f : α → Option β) :
    ∀ (l : List α) (b : β) (rest : List β), l.filterMap f = b :: rest →
      ∃ pre a post, l = pre ++ a :: post ∧ (∀ t ∈ pre, f t = none) ∧ f a = some b := by
  intro l
  induction l with
  | nil => intro b rest h; simp at h
  | cons x xs ih =>
    intro b rest h
    rw [List.filterMap_cons] at h
    match hx : f x with
    | some b' =>
      rw [hx] at h
      injection h with h1 h2
      exact ⟨[], x, xs, by simp, by simp, by rw [hx, h1]⟩
    | none =>
      rw [hx] at h
      obtain ⟨pre, a, post, hdec, hpre, ha⟩ := ih b rest h
      exact ⟨x :: pre, a, post, by simp [hdec], by
        intro t ht
        rcases List.mem_cons.mp ht with rfl | ht'
        · exact hx
        · exact hpre t ht', ha⟩

lemma allfail_filterMap {R : Type} (upload : String → Except String R) :
    ∀ (servers : List String), (∀ s ∈ servers, ∃ e, upload s = .error e) →
      (servers.filterMap (errPair upload)).map Prod.fst = servers ∧
      servers.filterMap (okPair upload) = [] := by
  intro servers
  induction servers with
  | nil => intro _; simp
  | cons s rest ih =>
    intro h
    obtain ⟨e, he⟩ := h s (List.mem_cons_self s rest)
    obtain ⟨ih1, ih2⟩ := ih (fun t ht => h t (List.mem_cons_of_mem s ht))
    rw [List.filterMap_cons, List.filterMap_cons]
    simp [okPair, errPair, he, ih1, ih2]

/-- C2: for every non-empty endpoint list, upload-to-all succeeds overall
iff at least one endpoint's upload succeeded; on success the result holds
one outcome per endpoint (successes plus failures partition the list) and
the primary result is the first successful response in list order; when
every endpoint fails it raises the single aggregate error whose message
enumerates each endpoint's individual failure reason, one `url: reason`
segment per endpoint, never collapsed. -/
theorem uploadToAllServers_spec {R : Type} (upload : String → Except String R)
    (servers : List String) (_hne : servers ≠ []) :
    ((∃ res, uploadToAllServers upload servers = .ok res) ↔
      ∃ s ∈ servers, ∃ v, upload s = .ok v) ∧
    (∀ res, uploadToAllServers upload servers = .ok res →
      res.successful.length + res.failed.length = servers.length ∧
      (∀ p ∈ res.successful, p.1 ∈ servers ∧ upload p.1 = .ok p.2) ∧
      (∀ p ∈ res.failed, p.1 ∈ servers ∧ upload p.1 = .error p.2) ∧
      (∃ pre a post, servers = pre ++ a :: post ∧
        (∀ t ∈ pre, ∀ v, upload t ≠ .ok v) ∧ upload a = .ok res.primaryResult)) ∧
    ((∀ s ∈ servers, ∃ e, upload s = .error e) →
      ∃ reasons : List (String × String), reasons.map Prod.fst = servers ∧
        (∀ p ∈ reasons, upload p.1 = .error p.2) ∧
        uploadToAllServers upload servers = .error (allFailedMsg reasons)) := by
  refine ⟨?_, ?_, ?_⟩
  · constructor
    · rintro ⟨res, hres⟩
      rw [uploadToAllServers] at hres
      match hok : servers.filterMap (okPair upload) with
      | [] => rw [hok] at hres; simp at hres
      | first :: rest2 =>
        have hmem : first ∈ servers.filterMap (okPair upload) := by
          rw [hok]; exact List.mem_cons_self _ _
        obtain ⟨s, hs, hsome⟩ := List.mem_filterMap.mp hmem
        refine ⟨s, hs, first.2, ?_⟩
        unfold okPair at hsome
        match h : upload s with
        | .ok v => rw [h] at hsome; injection hsome with h2; rw [← h2]
        | .error e => rw [h] at hsome; exact absurd hsome (by simp)
    · rintro ⟨s, hs, v, hv⟩
      rw [uploadToAllServers]
      match hok : servers.filterMap (okPair upload) with
      | first :: rest2 => exact ⟨_, rfl⟩
      | [] =>
        exfalso
        have : okPair upload s = none := List.filterMap_eq_nil_iff.mp hok s hs
        rw [okPair, hv] at this
        simp at this
  · intro res hres
    rw [uploadToAllServers] at hres
    match hok : servers.filterMap (okPair upload) with
    | [] => rw [hok] at hres; simp at hres
    | first :: rest2 =>
      rw [hok] at hres
      simp only [Except.ok.injEq] at hres
      subst hres
      refine ⟨?_, ?_, ?_, ?_⟩
      · rw [← hok, length_ok_add_err]
      · intro p hp
        rw [← hok] at hp
        obtain ⟨s, hs, hsome⟩ := List.mem_filterMap.mp hp
        unfold okPair at hsome
        match h : upload s with
        | .ok v =>
          rw [h] at hsome
          injection hsome with h2
          subst h2
          exact ⟨hs, h⟩
        | .error e => rw [h] at hsome; exact absurd hsome (by simp)
      · intro p hp
        obtain ⟨s, hs, hsome⟩ := List.mem_filterMap.mp hp
        unfold errPair at hsome
        match h : upload s with
        | .ok v => rw [h] at hsome; exact absurd hsome (by simp)
        | .error e =>
          rw [h] at hsome
          injection hsome with h2
          subst h2
          exact ⟨hs, h⟩
      · obtain ⟨pre, a, post, hdec, hpre, ha⟩ :=
          filterMap_head_decomp (okPair upload) servers first rest2 hok
        refine ⟨pre, a, post, hdec, ?_, ?_⟩
        · intro t ht v hv
          have := hpre t ht
          rw [okPair, hv] at this
          simp at this
        · unfold okPair at ha
          match h : upload a with
          | .ok v =>
            rw [h] at ha
            injection ha with h2
            cases h2
            rfl
          | .error e => rw [h] at ha; exact absurd ha (by simp)
  · intro hall
    obtain ⟨h1, h2⟩ := allfail_filterMap upload servers hall
    refine ⟨servers.filterMap (errPair upload), h1, ?_, ?_⟩
    · intro p hp
      obtain ⟨s, hs, hsome⟩ := List.mem_filterMap.mp hp
      unfold errPair at hsome
      match h : upload s with
      | .ok v => rw [h] at hsome; exact absurd hsome (by simp)
      | .error e =>
        rw [h] at hsome
        injection hsome with h3
        subst h3
        exact h
    · rw [uploadToAllServers]
      rw [h2]

/-- Upload outcome used by the C2 witness: endpoint B succeeds, A and C
fail. -/
def exampleUploadAll : String → Except String Nat :=
  fun s => if s = "B" then .ok 7 else .error ("boom " ++ s)

/-- C2, witness: with endpoints [A, B, C] where only B succeeds, the
operation reports overall success. -/
theorem uploadToAllServers_spec_witness :
    ∃ res, uploadToAllServers exampleUploadAll ["A", "B", "C"] = .ok res :=
  (uploadToAllServers_spec exampleUploadAll ["A", "B", "C"] (by decide)).1.mpr
    ⟨"B", by decide, 7, by rfl⟩

/-- One per-endpoint attempt record of `uploadWithFallbackSequential`. -/
structure AttemptEntry where
  serverUrl : String
  error : Option String
  success : Bool
deriving DecidableEq, Repr

/-- The success shape of `uploadWithFallbackSequential`: the response, the
server that took the upload, and the attempt log. -/
structure FallbackUploadSuccess (R : Type) where
  result : R
  serverUrl : String
  attemptedServers : List AttemptEntry
deriving DecidableEq, Repr

/-- Model of the sequential loop of `uploadWithFallbackSequential`
(part_006 lines 967-1033) on a non-empty user server list: try each
server in rank order, push a failure entry and continue on error, push a
success entry and stop on success; if the list is exhausted the
comprehensive error carrying the ordered attempt list is thrown (its
message string, which repeats the same information, is elided). -/
def uploadWithFallbackSequentialGo {R : Type} (upload : String → Except String R) :
    List String → List AttemptEntry → Except (List AttemptEntry) (FallbackUploadSuccess R)
  | [], attempted => .error attempted
  | s :: rest, attempted =>
    match upload s with
    | .ok r => .ok ⟨r, s, attempted ++ [⟨s, none, true⟩]⟩
    | .error e => uploadWithFallbackSequentialGo upload rest (attempted ++ [⟨s, some e, false⟩])

/-- Entry point of the sequential-fallback upload: empty attempt log. -/
def uploadWithFallbackSequential {R : Type} (upload : String → Except String R)
    (servers : List String) : Except (List AttemptEntry) (FallbackUploadSuccess R) :=
  uploadWithFallbackSequentialGo upload servers []

/-- The attempt entries produced by a run of failing servers `pre` with
error messages `errs`. -/
def failEntries (pre : List String) (errs : List String) : List AttemptEntry :=
  (pre.zip errs).map (fun p => ⟨p.1, some p.2, false⟩)

lemma forall₂_error_transfer {R : Type} (upload g : String → Except String R) :
    ∀ {pre errs : List String}, List.Forall₂ (fun t e => upload t = .error e) pre errs →
      (∀ t ∈ pre, g t = upload t) → List.Forall₂ (fun t e => g t = .error e) pre errs := by
  intro pre errs h
  induction h with
  | nil => intro _; constructor
  | cons h1 h2 ih =>
    rename_i t e pre' errs'
    intro hg
    constructor
    · rw [hg t (List.mem_cons_self _ _), h1]
    · exact ih (fun u hu => hg u (List.mem_cons_of_mem _ hu))

lemma go_after_failures {R : Type} (upload : String → Except String R) :
    ∀ (pre errs : List String) (tail : List String) (acc : List AttemptEntry),
      List.Forall₂ (fun t e => upload t = .error e) pre errs →
      uploadWithFallbackSequentialGo upload (pre ++ tail) acc =
        uploadWithFallbackSequentialGo upload tail (acc ++ failEntries pre errs) := by
  intro pre errs tail acc hfa
  induction hfa generalizing acc with
  | nil => simp [failEntries]
  | cons hte hrest ih =>
    rename_i t e pre' errs'
    rw [List.cons_append]
    simp only [uploadWithFallbackSequentialGo, hte]
    rw [ih]
    simp [failEntries]

/-- C3: upload-with-fallback attempts endpoints strictly sequentially in
rank order and stops at the first success: if the servers before `s` all
fail and `s` succeeds, the outcome is success at `s` with exactly one
failure entry per tried endpoint followed by the success entry, and the
result does not depend on the outcome function beyond the attempted
prefix (so endpoints after `s` are never attempted); if every endpoint
fails, the aggregate error carries the ordered per-endpoint attempt
list. -/
theorem uploadWithFallbackSequential_spec {R : Type} (upload : String → Except String R)
    (servers : List String) :
    (∀ pre errs s post v, servers = pre ++ s :: post →
      List.Forall₂ (fun t e => upload t = .error e) pre errs →
      upload s = .ok v →
      (uploadWithFallbackSequential upload servers =
        .ok ⟨v, s, failEntries pre errs ++ [⟨s, none, true⟩]⟩ ∧
       ∀ g : String → Except String R, (∀ t ∈ pre, g t = upload t) → g s = upload s →
         uploadWithFallbackSequential g servers = uploadWithFallbackSequential upload servers)) ∧
    (∀ errs, List.Forall₂ (fun t e => upload t = .error e) servers errs →
      uploadWithFallbackSequential upload servers = .error (failEntries servers errs)) := by
  constructor
  · intro pre errs s post v hdec hfa hok
    have hmain : uploadWithFallbackSequential upload servers =
        .ok ⟨v, s, failEntries pre errs ++ [⟨s, none, true⟩]⟩ := by
      rw [uploadWithFallbackSequential, hdec, go_after_failures upload pre errs _ [] hfa]
      rw [uploadWithFallbackSequentialGo, hok]
      simp
    refine ⟨hmain, ?_⟩
    intro g hgpre hgs
    have hfa' : List.Forall₂ (fun t e => g t = .error e) pre errs :=
      forall₂_error_transfer upload g hfa hgpre
    have hmain' : uploadWithFallbackSequential g servers =
        .ok ⟨v, s, failEntries pre errs ++ [⟨s, none, true⟩]⟩ := by
      rw [uploadWithFallbackSequential, hdec, go_after_failures g pre errs _ [] hfa']
      rw [uploadWithFallbackSequentialGo, hgs, hok]
      simp
    rw [hmain, hmain']
  · intro errs hfa
    rw [uploadWithFallbackSequential]
    have := go_after_failures upload servers errs [] [] hfa
    rw [List.append_nil] at this
    rw [this]
    simp [uploadWithFallbackSequentialGo]

/-- Upload outcome used by the C3 witness: A fails, B succeeds, C would
fail if it were ever attempted. -/
def exampleFallbackUpload : String → Except String Nat :=
  fun s => if s = "B" then .ok 42 else .error ("fail " ++ s)

/-- C3, witness: with endpoints [A, B, C] where A fails and B succeeds,
the attempt log is exactly [{A, false}, {B, true}] and C is never
attempted. -/
theorem uploadWithFallbackSequential_spec_witness :
    uploadWithFallbackSequential exampleFallbackUpload ["A", "B", "C"] =
      .ok ⟨42, "B", [⟨"A", some "fail A", false⟩, ⟨"B", none, true⟩]⟩ := by
  have h := (uploadWithFallbackSequential_spec exampleFallbackUpload ["A", "B", "C"]).1
    ["A"] ["fail A"] "B" ["C"] 42 (by decide)
    (List.Forall₂.cons (by rfl) List.Forall₂.nil) (by rfl)
  simpa [failEntries] using h.1

/-- Settled outcome of one HTTP call: a response with a status code, or a
thrown network error with a message. -/
inductive HttpOutcome where
  | http (status : Nat)
  | netErr (msg : String)
deriving DecidableEq, Repr

/-- `Response.ok` of the fetch API: status in 200-299. -/
def statusOk (st : Nat) : Bool := 200 ≤ st && st < 300

/-- The per-endpoint error `deleteBlobWithFallback` records for an
outcome, if any: a non-ok response throws
`Failed to delete blob: {status}`; a network failure throws its own
message; a 2xx response is a confirmed deletion (no error). -/
def deleteErrorMsg : HttpOutcome → Option String
  | .http st => if statusOk st then none else some ("Failed to delete blob: " ++ toString st)
  | .netErr m => some m

/-- Observable result of a `deleteBlobWithFallback` run: the overall
outcome, how many auth events were minted, and which endpoints were
issued a DELETE, in order. -/
structure DeleteRun where
  result : Except String Unit
  mintCount : Nat
  attempted : List String
deriving Repr

/-- The delete loop of `deleteBlobWithFallback` (part_006 lines
1039-1085): every server is tried; a success bumps `successCount`, a
failure (404 included) replaces `lastError` and the loop continues. -/
def deleteLoop (resp : String → HttpOutcome) :
    List String → Option String → Nat → List String → Option String × Nat × List String
  | [], lastError, successCount, attempted => (lastError, successCount, attempted)
  | s :: rest, lastError, successCount, attempted =>
    match deleteErrorMsg (resp s) with
    | none => deleteLoop resp rest lastError (successCount + 1) (attempted ++ [s])
    | some e => deleteLoop resp rest (some e) successCount (attempted ++ [s])

/-- Model of `deleteBlobWithFallback` on a non-empty user server list:
one shared delete auth event is minted before the loop, the loop visits
every server, and the run fails only when no server confirmed deletion,
in which case the last error is surfaced. -/
def deleteBlobWithFallback (resp : String → HttpOutcome) (servers : List String) : DeleteRun :=
  let r := deleteLoop resp servers none 0 []
  { result := if r.2.1 = 0 then .error ((r.1).getD "Failed to delete from any server") else .ok ()
    mintCount := 1
    attempted := r.2.2 }

lemma deleteLoop_spec (resp : String → HttpOutcome) :
    ∀ (servers : List String) (le0 : Option String) (c0 : Nat) (a0 : List String),
      (deleteLoop resp servers le0 c0 a0).2.2 = a0 ++ servers ∧
      ((deleteLoop resp servers le0 c0 a0).2.1 = c0 ↔
        ∀ s ∈ servers, (deleteErrorMsg (resp s)).isSome) ∧
      (c0 ≤ (deleteLoop resp servers le0 c0 a0).2.1) ∧
      ((∀ s ∈ servers, (deleteErrorMsg (resp s)).isSome) →
        ∀ s', servers.getLast? = some s' →
          (deleteLoop resp servers le0 c0 a0).1 = deleteErrorMsg (resp s')) := by
  intro servers
  induction servers with
  | nil =>
    intro le0 c0 a0
    refine ⟨by simp [deleteLoop], by simp [deleteLoop], le_rfl, ?_⟩
    intro _ s' hs'
    simp at hs'
  | cons s rest ih =>
    intro le0 c0 a0
    match hm : deleteErrorMsg (resp s) with
    | none =>
      rw [deleteLoop]
      simp only [hm]
      obtain ⟨ih1, ih2, ih3, ih4⟩ := ih le0 (c0 + 1) (a0 ++ [s])
      refine ⟨by rw [ih1]; simp, ?_, by omega, ?_⟩
      · constructor
        · intro hc
          exfalso
          omega
        · intro hall
          exfalso
          have := hall s (List.mem_cons_self _ _)
          rw [hm] at this
          simp at this
      · intro hall s' hs'
        exfalso
        have := hall s (List.mem_cons_self _ _)
        rw [hm] at this
        simp at this
    | some e =>
      rw [deleteLoop]
      simp only [hm]
      obtain ⟨ih1, ih2, ih3, ih4⟩ := ih (some e) c0 (a0 ++ [s])
      refine ⟨by rw [ih1]; simp, ?_, ih3, ?_⟩
      · rw [ih2]
        constructor
        · intro hall t ht
          rcases List.mem_cons.mp ht with rfl | ht'
          · rw [hm]; simp
          · exact hall t ht'
        · intro hall t ht
          exact hall t (List.mem_cons_of_mem _ ht)
      · intro hall s' hs'
        match rest with
        | [] =>
          simp only [List.getLast?_singleton, Option.some.injEq] at hs'
          subst hs'
          rw [deleteLoop, hm]
        | t :: rest' =>
          rw [List.getLast?_cons_cons] at hs'
          exact ih4 (fun u hu => hall u (List.mem_cons_of_mem _ hu)) s' hs'

/-- C4: delete is attempted against every endpoint in the list (it never
stops at the first success, and a 404 on one endpoint does not prevent
later endpoints from being attempted), mints exactly one shared delete
token for the hash, declares overall success iff some endpoint confirmed
deletion with a 2xx (an individual 404 is non-fatal: the loop continues
and other endpoints decide the outcome), and when no endpoint confirmed
deletion it surfaces the last endpoint's error. -/
theorem deleteBlobWithFallback_spec (resp : String → HttpOutcome) (servers : List String) :
    (deleteBlobWithFallback resp servers).attempted = servers ∧
    (deleteBlobWithFallback resp servers).mintCount = 1 ∧
    ((deleteBlobWithFallback resp servers).result = .ok () ↔
      ∃ s ∈ servers, deleteErrorMsg (resp s) = none) ∧
    ((∀ s ∈ servers, (deleteErrorMsg (resp s)).isSome) →
      ∀ s' m, servers.getLast? = some s' → deleteErrorMsg (resp s') = some m →
        (deleteBlobWithFallback resp servers).result = .error m) := by
  obtain ⟨h1, h2, h3, h4⟩ := deleteLoop_spec resp servers none 0 []
  refine ⟨by simpa [deleteBlobWithFallback] using h1, rfl, ?_, ?_⟩
  · rw [deleteBlobWithFallback]
    by_cases hz : (deleteLoop resp servers none 0 []).2.1 = 0
    · simp only [if_pos hz]
      apply iff_of_false
      · simp
      · rintro ⟨s, hs, hnone⟩
        have := h2.mp hz s hs
        rw [hnone] at this
        simp at this
    · simp only [if_neg hz]
      rw [true_iff]
      by_contra hno
      push_neg at hno
      apply hz
      rw [h2]
      intro s hs
      have hne := hno s hs
      match hm : deleteErrorMsg (resp s) with
      | none => exact absurd hm hne
      | some e => simp
  · intro hall s' m hs' hm
    have hz : (deleteLoop resp servers none 0 []).2.1 = 0 := h2.mpr hall
    rw [deleteBlobWithFallback]
    simp only [hz, if_pos rfl]
    rw [h4 hall s' hs', hm]
    rfl

/-- Delete outcome used by the C4 witness: endpoint A reports 404 (blob
absent there), endpoint B confirms with 200. -/
def exampleDeleteResp : String → HttpOutcome :=
  fun s => if s = "B" then .http 200 else .http 404

/-- C4, witness: with endpoints [A, B] where A returns 404 and B confirms
deletion, the run succeeds overall (the 404 was non-fatal and B was still
attempted). -/
theorem deleteBlobWithFallback_spec_witness :
    (deleteBlobWithFallback exampleDeleteResp ["A", "B"]).result = .ok () :=
  (deleteBlobWithFallback_spec exampleDeleteResp ["A", "B"]).2.2.1.mpr ⟨"B", by decide, by rfl⟩

/-- The three availability buckets returned by `checkBlobAvailability`. -/
structure AvailabilityResult where
  available : List String
  unavailable : List String
  errors : List (String × String)
deriving DecidableEq, Repr

/-- One probe result as the source builds it:
`{serverUrl, available := response.ok, error}` (a fetch rejection gives
`available: false` with the error; an HTTP response gives `response.ok`
with no error, whatever the status). -/
def probeOutcome (resp : String → HttpOutcome) (s : String) : String × Bool × Option String :=
  match resp s with
  | .http st => (s, statusOk st, none)
  | .netErr m => (s, false, some m)

/-- Model of `checkBlobAvailability` (part_006 lines 1222-1267): probe
every server, then partition — `available` if the response was ok,
otherwise `errors` if an error was caught, otherwise `unavailable`. -/
def checkBlobAvailability (resp : String → HttpOutcome) (servers : List String) :
    AvailabilityResult :=
  let results := servers.map (probeOutcome resp)
  { available := results.filterMap (fun r => if r.2.1 then some r.1 else none)
    unavailable := results.filterMap (fun r =>
      if r.2.1 then none else match r.2.2 with
        | some _ => none
        | none => some r.1)
    errors := results.filterMap (fun r =>
      if r.2.1 then none else match r.2.2 with
        | some m => some (r.1, m)
        | none => none) }

/-- An endpoint the probe classifies available: HTTP 2xx. -/
def isAvailableResp (o : HttpOutcome) : Bool :=
  match o with
  | .http st => statusOk st
  | .netErr _ => false

/-- An endpoint the probe classifies unavailable: any non-2xx HTTP
response, not only 404. -/
def isUnavailableResp (o : HttpOutcome) : Bool :=
  match o with
  | .http st => !statusOk st
  | .netErr _ => false

/-- The error entry an endpoint contributes: only network failures. -/
def netErrPair (s : String) (o : HttpOutcome) : Option (String × String) :=
  match o with
  | .http _ => none
  | .netErr m => some (s, m)

lemma avail_eq (resp : String → HttpOutcome) : ∀ servers : List String,
    (servers.map (probeOutcome resp)).filterMap (fun r => if r.2.1 then some r.1 else none) =
      servers.filter (fun s => isAvailableResp (resp s)) := by
  intro servers
  induction servers with
  | nil => rfl
  | cons s rest ih =>
    rw [List.map_cons, List.filterMap_cons, List.filter_cons]
    match h : resp s with
    | .http st =>
      by_cases hok : statusOk st = true <;>
        simp [probeOutcome, h, hok, isAvailableResp, ih]
    | .netErr m => simp [probeOutcome, h, isAvailableResp, ih]

lemma unavail_eq (resp : String → HttpOutcome) : ∀ servers : List String,
    (servers.map (probeOutcome resp)).filterMap (fun r =>
        if r.2.1 then none else match r.2.2 with
          | some _ => none
          | none => some r.1) =
      servers.filter (fun s => isUnavailableResp (resp s)) := by
  intro servers
  induction servers with
  | nil => rfl
  | cons s rest ih =>
    rw [List.map_cons, List.filterMap_cons, List.filter_cons]
    match h : resp s with
    | .http st =>
      by_cases hok : statusOk st = true <;>
        simp [probeOutcome, h, hok, isUnavailableResp, ih]
    | .netErr m => simp [probeOutcome, h, isUnavailableResp, ih]

lemma errors_eq (resp : String → HttpOutcome) : ∀ servers : List String,
    (servers.map (probeOutcome resp)).filterMap (fun r =>
        if r.2.1 then none else match r.2.2 with
          | some m => some (r.1, m)
          | none => none) =
      servers.filterMap (fun s => netErrPair s (resp s)) := by
  intro servers
  induction servers with
  | nil => rfl
  | cons s rest ih =>
    rw [List.map_cons, List.filterMap_cons, List.filterMap_cons]
    match h : resp s with
    | .http st =>
      by_cases hok : statusOk st = true <;>
        simp [probeOutcome, h, hok, netErrPair, ih]
    | .netErr m => simp [probeOutcome, h, netErrPair, ih]

lemma counts_sum (resp : String → HttpOutcome) : ∀ servers : List String,
    (servers.filter (fun s => isAvailableResp (resp s))).length +
      (servers.filter (fun s => isUnavailableResp (resp s))).length +
      (servers.filterMap (fun s => netErrPair s (resp s))).length = servers.length := by
  intro servers
  induction servers with
  | nil => rfl
  | cons s rest ih =>
    rw [List.filter_cons, List.filter_cons, List.filterMap_cons, List.length_cons]
    match h : resp s with
    | .http st =>
      rw [show isAvailableResp (HttpOutcome.http st) = statusOk st from rfl,
          show isUnavailableResp (HttpOutcome.http st) = !statusOk st from rfl,
          show netErrPair s (HttpOutcome.http st) = none from rfl]
      by_cases hok : statusOk st = true <;>
        · simp [hok]
          omega
    | .netErr m =>
      rw [show isAvailableResp (HttpOutcome.netErr m) = false from rfl,
          show isUnavailableResp (HttpOutcome.netErr m) = false from rfl,
          show netErrPair s (HttpOutcome.netErr m) = some (s, m) from rfl]
      simp
      omega

/-- C5, counterexample: an endpoint answering HTTP 500 (not 404) is
classified `unavailable` (with `errors` empty), contradicting the claim
that only a 404 yields `unavailable` and any other status yields the
indeterminate `error` category. -/
theorem checkBlobAvailability_500_unavailable :
    checkBlobAvailability (fun _ => .http 500) ["https://a"] =
      ⟨[], ["https://a"], []⟩ := by
  decide

/-- C5 (amended): the availability probe classifies every endpoint's
result into exactly one of the three categories, with the mapping: HTTP
2xx implies `available`, ANY non-2xx HTTP response (404, 500, anything
else) implies `unavailable`, and only a network failure (fetch rejection)
implies `error`; a non-404 server response is therefore classified
`unavailable`, not `error`. -/
theorem checkBlobAvailability_spec (resp : String → HttpOutcome) (servers : List String) :
    (checkBlobAvailability resp servers).available =
      servers.filter (fun s => isAvailableResp (resp s)) ∧
    (checkBlobAvailability resp servers).unavailable =
      servers.filter (fun s => isUnavailableResp (resp s)) ∧
    (checkBlobAvailability resp servers).errors =
      servers.filterMap (fun s => netErrPair s (resp s)) ∧
    (checkBlobAvailability resp servers).available.length +
      (checkBlobAvailability resp servers).unavailable.length +
      (checkBlobAvailability resp servers).errors.length = servers.length := by
  refine ⟨avail_eq resp servers, unavail_eq resp servers, errors_eq resp servers, ?_⟩
  rw [checkBlobAvailability]
  simp only []
  rw [avail_eq resp servers, unavail_eq resp servers, errors_eq resp servers]
  exact counts_sum resp servers

/-- Observable result of `uploadWithFallback` / `listBlobsEnhanced`: the
outcome, the user-list endpoints contacted in order, and whether the
engine's constructor-configured default server was contacted at the
end. -/
structure FallbackRun (R : Type) where
  result : Except String R
  contacted : List String
  defaultTried : Bool
deriving Repr

/-- Model of the loop of `uploadWithFallback` (part_006 lines 852-882) on
a non-empty user server list: try each user server in order, return the
first success; once the list is exhausted, make one extra attempt against
the default server (`defaultRes` is the outcome of `this.uploadFile`,
which targets the constructor server, not necessarily in the list); if
that also fails, throw `lastError || error` — the last user-server error
when one exists. -/
def uploadWithFallbackGo {R : Type} (upload : String → Except String R)
    (defaultRes : Except String R) :
    List String → Option String → List String → FallbackRun R
  | [], lastError, contacted =>
    match defaultRes with
    | .ok v => ⟨.ok v, contacted, true⟩
    | .error e => ⟨.error (lastError.getD e), contacted, true⟩
  | s :: rest, _lastError, contacted =>
    match upload s with
    | .ok v => ⟨.ok v, contacted ++ [s], false⟩
    | .error e => uploadWithFallbackGo upload defaultRes rest (some e) (contacted ++ [s])

/-- Entry point of `uploadWithFallback`: no last error, nothing contacted. -/
def uploadWithFallback {R : Type} (upload : String → Except String R)
    (defaultRes : Except String R) (servers : List String) : FallbackRun R :=
  uploadWithFallbackGo upload defaultRes servers none []

/-- Model of the loop of `listBlobsEnhanced` (part_006 lines 816-846),
structurally identical to `uploadWithFallback` with the list operation in
place of the upload. -/
def listBlobsEnhancedGo {R : Type} (listOp : String → Except String R)
    (defaultRes : Except String R) :
    List String → Option String → List String → FallbackRun R
  | [], lastError, contacted =>
    match defaultRes with
    | .ok v => ⟨.ok v, contacted, true⟩
    | .error e => ⟨.error (lastError.getD e), contacted, true⟩
  | s :: rest, _lastError, contacted =>
    match listOp s with
    | .ok v => ⟨.ok v, contacted ++ [s], false⟩
    | .error e => listBlobsEnhancedGo listOp defaultRes rest (some e) (contacted ++ [s])

/-- Entry point of `listBlobsEnhanced`. -/
def listBlobsEnhanced {R : Type} (listOp : String → Except String R)
    (defaultRes : Except String R) (servers : List String) : FallbackRun R :=
  listBlobsEnhancedGo listOp defaultRes servers none []

lemma uploadGo_nil {R : Type} (f : String → Except String R) (d : Except String R)
    (le : Option String) (acc : List String) :
    uploadWithFallbackGo f d [] le acc =
      (match d with
       | .ok v => ⟨.ok v, acc, true⟩
       | .error e => ⟨.error (le.getD e), acc, true⟩) := rfl

lemma uploadGo_cons {R : Type} (f : String → Except String R) (d : Except String R)
    (s : String) (rest : List String) (le : Option String) (acc : List String) :
    uploadWithFallbackGo f d (s :: rest) le acc =
      (match f s with
       | .ok v => ⟨.ok v, acc ++ [s], false⟩
       | .error e => uploadWithFallbackGo f d rest (some e) (acc ++ [s])) := rfl

lemma listGo_eq_uploadGo {R : Type} (f : String → Except String R)
    (d : Except String R) :
    ∀ (l : List String) (le : Option String) (acc : List String),
      listBlobsEnhancedGo f d l le acc = uploadWithFallbackGo f d l le acc := by
  intro l
  induction l with
  | nil => intro le acc; rfl
  | cons s rest ih =>
    intro le acc
    rw [listBlobsEnhancedGo, uploadGo_cons]
    match f s with
    | .ok v => rfl
    | .error e => exact ih (some e) (acc ++ [s])

lemma uploadGo_allfail {R : Type} (upload : String → Except String R)
    (defaultRes : Except String R) :
    ∀ {servers errs : List String},
      List.Forall₂ (fun t e => upload t = .error e) servers errs →
      ∀ (le0 : Option String) (acc : List String) (lastErr : String),
        errs.getLast? = some lastErr →
        uploadWithFallbackGo upload defaultRes servers le0 acc =
          (match defaultRes with
           | .ok v => ⟨.ok v, acc ++ servers, true⟩
           | .error _ => ⟨.error lastErr, acc ++ servers, true⟩) := by
  intro servers errs hfa
  induction hfa with
  | nil =>
    intro le0 acc lastErr hlast
    simp at hlast
  | cons hte hrest ih =>
    rename_i t e pre' errs'
    intro le0 acc lastErr hlast
    simp only [uploadGo_cons, hte]
    cases hrest with
    | nil =>
      simp only [List.getLast?_singleton, Option.some.injEq] at hlast
      subst hlast
      rw [uploadGo_nil]
      match defaultRes with
      | .ok v => simp
      | .error e' => simp
    | cons h2 h3 =>
      rename_i u f pre2 errs2
      rw [List.getLast?_cons_cons] at hlast
      rw [ih (some e) (acc ++ [t]) lastErr hlast]
      match defaultRes with
      | .ok v => simp
      | .error e' => simp

lemma uploadGo_prefix_fail {R : Type} (upload : String → Except String R)
    (defaultRes : Except String R) :
    ∀ {pre errs : List String},
      List.Forall₂ (fun t e => upload t = .error e) pre errs →
      ∀ (tail : List String) (le0 : Option String) (acc : List String),
        ∃ le', uploadWithFallbackGo upload defaultRes (pre ++ tail) le0 acc =
          uploadWithFallbackGo upload defaultRes tail le' (acc ++ pre) := by
  intro pre errs hfa
  induction hfa with
  | nil => intro tail le0 acc; exact ⟨le0, by simp⟩
  | cons hte hrest ih =>
    rename_i t e pre' errs'
    intro tail le0 acc
    rw [List.cons_append]
    simp only [uploadGo_cons, hte]
    obtain ⟨le', hle⟩ := ih tail (some e) (acc ++ [t])
    refine ⟨le', ?_⟩
    rw [hle]
    congr 1
    simp

/-- C10: after every server in the user's list has failed,
`uploadWithFallback` and `listBlobsEnhanced` make one additional attempt
against the engine's constructor-configured default server (an endpoint
that need not appear in the user list is contacted: `defaultTried =
true`); if that extra attempt succeeds its value is returned, and if it
also fails the error thrown is the LAST user-list server's error, not the
default server's; when some user server succeeds first, the default
server is never contacted (`defaultTried = false`). -/
theorem fallback_contacts_default {R : Type} (upload listOp : String → Except String R)
    (upDefault listDefault : Except String R) (servers : List String)
    (_hne : servers ≠ []) :
    (∀ errs lastErr, List.Forall₂ (fun t e => upload t = .error e) servers errs →
      errs.getLast? = some lastErr →
      uploadWithFallback upload upDefault servers =
        (match upDefault with
         | .ok v => ⟨.ok v, servers, true⟩
         | .error _ => ⟨.error lastErr, servers, true⟩)) ∧
    (∀ errs lastErr, List.Forall₂ (fun t e => listOp t = .error e) servers errs →
      errs.getLast? = some lastErr →
      listBlobsEnhanced listOp listDefault servers =
        (match listDefault with
         | .ok v => ⟨.ok v, servers, true⟩
         | .error _ => ⟨.error lastErr, servers, true⟩)) ∧
    (∀ pre errs s post v, servers = pre ++ s :: post →
      List.Forall₂ (fun t e => upload t = .error e) pre errs →
      upload s = .ok v →
      uploadWithFallback upload upDefault servers = ⟨.ok v, pre ++ [s], false⟩) := by
  refine ⟨?_, ?_, ?_⟩
  · intro errs lastErr hfa hlast
    rw [uploadWithFallback, uploadGo_allfail upload upDefault hfa none [] lastErr hlast]
    match upDefault with
    | .ok v => simp
    | .error e => simp
  · intro errs lastErr hfa hlast
    rw [listBlobsEnhanced, listGo_eq_uploadGo,
      uploadGo_allfail listOp listDefault hfa none [] lastErr hlast]
    match listDefault with
    | .ok v => simp
    | .error e => simp
  · intro pre errs s post v hdec hfa hok
    rw [uploadWithFallback, hdec]
    obtain ⟨le', hle⟩ := uploadGo_prefix_fail upload upDefault hfa (s :: post) none []
    rw [hle, List.nil_append]
    simp only [uploadGo_cons, hok]

/-- Upload outcome used by the C10 witness: every user server is down. -/
def exampleFallbackAll : String → Except String Nat :=
  fun s => Except.error ("down " ++ s)

/-- C10, witness: with user servers [A, B] both failing and a default
server whose upload succeeds, the default server is contacted
(`defaultTried = true`) and its value is returned even though it is not in
the user list. -/
theorem fallback_contacts_default_witness :
    uploadWithFallback exampleFallbackAll (Except.ok 9) ["A", "B"] =
      ⟨Except.ok 9, ["A", "B"], true⟩ := by
  have h := (fallback_contacts_default exampleFallbackAll exampleFallbackAll
    (Except.ok 9) (Except.ok 9) ["A", "B"] (by decide)).1
    ["down A", "down B"] "down B"
    (List.Forall₂.cons (by rfl) (List.Forall₂.cons (by rfl) List.Forall₂.nil)) (by rfl)
  simpa using h

end Swarm
